import Mathlib

/-!
Shallow embedding of `split_by_silence.py` (repository `akiraak/yt-fukikae`).

The core of the repository is `build_segments(silence_points, total_duration,
min_segment, max_segment)`: a greedy left-to-right sweep producing a list of
`(start, end)` segments.  Timestamps are modelled as rationals.  The two
`while`-loops of the Python code are modelled fuel-indexed (they can genuinely
diverge for invalid configurations, e.g. `max_segment = 0`), returning `none`
when the fuel bound is exhausted; `buildSegments` invokes them with a fuel
bound that is proved sufficient whenever `0 < max_segment`.
-/

namespace YtFukikae

/-- A segment `(start, end)` as produced by `build_segments`. -/
abbrev Seg := ℚ × ℚ

/-- The forced-cut `while`-loop of `build_segments`
(lines 77-83 and again lines 92-98 of `split_by_silence.py`):
`while start + max_segment < target: cut = start + max_segment;
 if cut - start >= min_segment: append (start, cut); start = cut; else break`.
Fuel-indexed; `none` means the loop did not finish within `fuel` iterations. -/
def forceLoop (minSeg maxSeg target : ℚ) : ℕ → ℚ × List Seg → Option (ℚ × List Seg)
  | 0, _ => none
  | fuel + 1, (start, segs) =>
    if start + maxSeg < target then
      let cut := start + maxSeg
      if minSeg ≤ cut - start then
        forceLoop minSeg maxSeg target fuel (cut, segs ++ [(start, cut)])
      else
        some (start, segs)
    else
      some (start, segs)

/-- The `for sp in silence_points` loop of `build_segments` (lines 75-89):
for each point, first the forced-cut sub-loop toward `sp`, then the
natural-cut decision `if sp - start >= min_segment`. -/
def procPoints (minSeg maxSeg : ℚ) (fuel : ℕ) :
    List ℚ → ℚ × List Seg → Option (ℚ × List Seg)
  | [], st => some st
  | sp :: rest, st =>
    match forceLoop minSeg maxSeg sp fuel st with
    | none => none
    | some (start, segs) =>
      let seg_len := sp - start
      if minSeg ≤ seg_len then
        procPoints minSeg maxSeg fuel rest (sp, segs ++ [(start, sp)])
      else
        procPoints minSeg maxSeg fuel rest (start, segs)

/-- Lines 70-73 of `split_by_silence.py`:
`silence_points = sorted(sp for sp in silence_points if 0.0 < sp < total_duration)`. -/
def sortedPoints (silence_points : List ℚ) (total_duration : ℚ) : List ℚ :=
  List.insertionSort (· ≤ ·)
    (silence_points.filter fun sp => decide (0 < sp ∧ sp < total_duration))

/-- Fuel bound handed to each `while`-loop: sufficient whenever
`0 < maxSeg` (each loop advances the cursor by `maxSeg` and all targets
lie in `[0, total_duration]`). -/
def fuelFor (total_duration maxSeg : ℚ) : ℕ :=
  ⌈total_duration / maxSeg⌉₊ + 1

/-- `build_segments` (lines 54-111 of `split_by_silence.py`).
Returns `none` only if one of the `while`-loops failed to terminate within
the fuel bound (proved impossible for `0 < min_segment ≤ max_segment`). -/
def buildSegments (silence_points : List ℚ)
    (total_duration minSeg maxSeg : ℚ) : Option (List Seg) :=
  let pts := sortedPoints silence_points total_duration
  let F := fuelFor total_duration maxSeg
  match procPoints minSeg maxSeg F pts (0, []) with
  | none => none
  | some st =>
    match forceLoop minSeg maxSeg total_duration F st with
    | none => none
    | some (start, segs) =>
      let tail_len := total_duration - start
      if minSeg ≤ tail_len then
        some (segs ++ [(start, total_duration)])
      else
        match segs.getLast? with
        | some last => some (segs.dropLast ++ [(last.1, total_duration)])
        | none => some [(0, total_duration)]

/-- `segs` is a contiguous chain of segments from `a` to `b`:
each segment starts where the previous one ended, the first starts at `a`,
and the final end (or `a` itself, if the list is empty) is `b`. -/
def SegChain : ℚ → List Seg → ℚ → Prop
  | a, [], b => a = b
  | a, sg :: rest, b => sg.1 = a ∧ SegChain sg.2 rest b

/-! ### Basic properties of `SegChain` -/

lemma segChain_nil {a b : ℚ} : SegChain a [] b ↔ a = b := Iff.rfl

lemma segChain_cons {a b : ℚ} {sg : Seg} {t : List Seg} :
    SegChain a (sg :: t) b ↔ sg.1 = a ∧ SegChain sg.2 t b := Iff.rfl

lemma segChain_append {a b c : ℚ} :
    ∀ {l₁ : List Seg}, SegChain a l₁ b → ∀ {l₂ : List Seg}, SegChain b l₂ c →
      SegChain a (l₁ ++ l₂) c
  | [], h₁, l₂, h₂ => by rw [show a = b from h₁]; simpa using h₂
  | sg :: t, h₁, l₂, h₂ => ⟨h₁.1, segChain_append h₁.2 h₂⟩

lemma segChain_concat {a b : ℚ} {sg : Seg} :
    ∀ {l : List Seg}, SegChain a (l ++ [sg]) b ↔ SegChain a l sg.1 ∧ sg.2 = b
  | [] => by simp [SegChain, eq_comm]
  | sg' :: t => by
    simp only [List.cons_append, segChain_cons, segChain_concat, and_assoc]

lemma segChain_head {a b : ℚ} {l : List Seg} (h : SegChain a l b) (hne : l ≠ []) :
    l.head?.map Prod.fst = some a := by
  cases l with
  | nil => exact absurd rfl hne
  | cons sg t => simpa using h.1

lemma segChain_getLast {a b : ℚ} {l : List Seg} (h : SegChain a l b) (hne : l ≠ []) :
    l.getLast?.map Prod.snd = some b := by
  obtain ⟨sg, t, rfl⟩ : ∃ sg t, l = t ++ [sg] := by
    rcases List.eq_nil_or_concat l with h' | ⟨t, sg, rfl⟩
    · exact absurd h' hne
    · exact ⟨sg, t, List.concat_eq_append t sg⟩
  rw [segChain_concat] at h
  simp [h.2]

/-! ### Invariants of the forced-cut loop -/

/-- If the loop condition fails, one unit of fuel suffices and nothing changes. -/
lemma forceLoop_noop {mn mx target start : ℚ} {segs : List Seg}
    (h : ¬ start + mx < target) {fuel : ℕ} (hf : 1 ≤ fuel) :
    forceLoop mn mx target fuel (start, segs) = some (start, segs) := by
  obtain ⟨n, rfl⟩ : ∃ n, fuel = n + 1 := ⟨fuel - 1, by omega⟩
  simp [forceLoop, h]

/-- Everything the forced-cut loop guarantees about a successful run:
the produced segments are appended at the end, they chain from the old cursor
to the new one, each has length between `minSeg` and `maxSeg`, the cursor only
moves forward (staying put or landing strictly before the target), and on exit
the loop condition is false (given `minSeg ≤ maxSeg`, the `break` branch is
unreachable). -/
lemma forceLoop_spec {mn mx target : ℚ} (hmn : 0 < mn) :
    ∀ (fuel : ℕ) (start : ℚ) (segs : List Seg) (res : ℚ × List Seg),
      forceLoop mn mx target fuel (start, segs) = some res →
      (∃ nw, res.2 = segs ++ nw ∧ SegChain start nw res.1 ∧
        ∀ sg ∈ nw, mn ≤ sg.2 - sg.1 ∧ sg.2 - sg.1 ≤ mx) ∧
      start ≤ res.1 ∧ (res.1 = start ∨ res.1 < target) ∧
      (mn ≤ mx → ¬ res.1 + mx < target)
  | 0, start, segs, res, h => by simp [forceLoop] at h
  | fuel + 1, start, segs, res, h => by
    simp only [forceLoop] at h
    by_cases hlt : start + mx < target
    · rw [if_pos hlt] at h
      by_cases hcut : mn ≤ start + mx - start
      · rw [if_pos hcut] at h
        have hmx0 : 0 < mx := by
          have : start + mx - start = mx := by ring
          rw [this] at hcut; exact lt_of_lt_of_le hmn hcut
        obtain ⟨⟨nw, hnw, hchain, hgood⟩, hle, hor, hexit⟩ :=
          forceLoop_spec hmn fuel (start + mx) (segs ++ [(start, start + mx)]) res h
        refine ⟨⟨(start, start + mx) :: nw, by simpa using hnw, ⟨rfl, hchain⟩, ?_⟩,
          ?_, ?_, hexit⟩
        · intro sg hsg
          rcases List.mem_cons.mp hsg with rfl | hsg
          · exact ⟨hcut, by simp⟩
          · exact hgood sg hsg
        · linarith
        · right
          rcases hor with h' | h'
          · rw [h']; exact hlt
          · exact h'
      · rw [if_neg hcut] at h
        obtain rfl : (start, segs) = res := Option.some.inj h
        have hmxmn : ¬ mn ≤ mx := by
          intro hc; exact hcut (by linarith [show start + mx - start = mx from by ring])
        exact ⟨⟨[], by simp, rfl, by simp⟩, le_refl _, Or.inl rfl,
          fun hc => absurd hc hmxmn⟩
    · rw [if_neg hlt] at h
      obtain rfl : (start, segs) = res := Option.some.inj h
      exact ⟨⟨[], by simp, rfl, by simp⟩, le_refl _, Or.inl rfl, fun _ => hlt⟩

/-- With fuel exceeding `(target - start) / maxSeg`, the forced-cut loop
terminates (returns `some`). -/
lemma forceLoop_isSome {mn mx target : ℚ} (hmx : 0 < mx) :
    ∀ (fuel : ℕ) (start : ℚ) (segs : List Seg),
      target - start ≤ (fuel : ℚ) * mx →
      ∃ res, forceLoop mn mx target (fuel + 1) (start, segs) = some res
  | 0, start, segs, h => by
    have hno : ¬ start + mx < target := by
      simp only [Nat.cast_zero, zero_mul] at h; linarith
    exact ⟨(start, segs), forceLoop_noop hno (by omega)⟩
  | fuel + 1, start, segs, h => by
    by_cases hlt : start + mx < target
    · by_cases hcut : mn ≤ start + mx - start
      · have h' : target - (start + mx) ≤ (fuel : ℚ) * mx := by
          push_cast at h ⊢; linarith
        obtain ⟨res, hres⟩ :=
          forceLoop_isSome hmx fuel (start + mx) (segs ++ [(start, start + mx)]) h'
        exact ⟨res, by simp only [forceLoop, if_pos hlt, if_pos hcut]; exact hres⟩
      · exact ⟨(start, segs), by simp only [forceLoop, if_pos hlt, if_neg hcut]⟩
    · exact ⟨(start, segs), forceLoop_noop hlt (by omega)⟩

/-- `total_duration ≤ ⌈total_duration / maxSeg⌉₊ * maxSeg`: the fuel bound
covers the whole stream. -/
lemma le_ceil_mul {td mx : ℚ} (hmx : 0 < mx) :
    td ≤ (⌈td / mx⌉₊ : ℚ) * mx := by
  have h := Nat.le_ceil (td / mx)
  rwa [div_le_iff₀ hmx] at h

/-! ### Invariants of the candidate-point loop -/

/-- Everything the `for sp in silence_points` loop guarantees about a
successful run, assuming every candidate lies strictly inside
`(0, total_duration)`: new segments are appended, chain from the old cursor to
the new one, have lengths in `[minSeg, maxSeg]`, and the cursor stays inside
`[0, total_duration)`. -/
lemma procPoints_spec {mn mx td : ℚ} (hmn : 0 < mn) (hmx : mn ≤ mx) {F : ℕ} :
    ∀ (pts : List ℚ), (∀ p ∈ pts, 0 < p ∧ p < td) →
      ∀ (start : ℚ) (segs : List Seg) (res : ℚ × List Seg),
        0 ≤ start → start < td →
        procPoints mn mx F pts (start, segs) = some res →
        (∃ nw, res.2 = segs ++ nw ∧ SegChain start nw res.1 ∧
          ∀ sg ∈ nw, mn ≤ sg.2 - sg.1 ∧ sg.2 - sg.1 ≤ mx) ∧
        0 ≤ res.1 ∧ res.1 < td
  | [], _, start, segs, res, h0, hlt, h => by
    obtain rfl : (start, segs) = res := Option.some.inj h
    exact ⟨⟨[], by simp, rfl, by simp⟩, h0, hlt⟩
  | p :: pts, hpts, start, segs, res, h0, hlt, h => by
    obtain ⟨hp0, hptd⟩ := hpts p (List.mem_cons_self p pts)
    have hpts' : ∀ q ∈ pts, 0 < q ∧ q < td := fun q hq => hpts q (List.mem_cons_of_mem p hq)
    rw [procPoints] at h
    cases hFL : forceLoop mn mx p F (start, segs) with
    | none => rw [hFL] at h; exact absurd h (by simp)
    | some st1 =>
      obtain ⟨s1, g1⟩ := st1
      rw [hFL] at h
      obtain ⟨⟨nw1, hg1, hchain1, hgood1⟩, hs1le, hs1or, hexit⟩ :=
        forceLoop_spec hmn F start segs (s1, g1) hFL
      dsimp only at hg1 hchain1 hs1le hs1or hexit h
      have hs1td : s1 < td := by
        rcases hs1or with h' | h'
        · rw [h']; exact hlt
        · exact lt_trans h' hptd
      have hs10 : 0 ≤ s1 := le_trans h0 hs1le
      by_cases hnat : mn ≤ p - s1
      · rw [if_pos hnat] at h
        obtain ⟨⟨nw2, hres2, hchain2, hgood2⟩, hr0, hrtd⟩ :=
          procPoints_spec hmn hmx pts hpts' p (g1 ++ [(s1, p)]) res
            (le_of_lt hp0) hptd h
        refine ⟨⟨nw1 ++ (s1, p) :: nw2, ?_, ?_, ?_⟩, hr0, hrtd⟩
        · rw [hres2, hg1]; simp
        · exact segChain_append hchain1 ⟨rfl, hchain2⟩
        · intro sg hsg
          rcases List.mem_append.mp hsg with hsg | hsg
          · exact hgood1 sg hsg
          · rcases List.mem_cons.mp hsg with rfl | hsg
            · have hple : p ≤ s1 + mx := le_of_not_lt (hexit hmx)
              exact ⟨hnat, by dsimp only; linarith⟩
            · exact hgood2 sg hsg
      · rw [if_neg hnat] at h
        obtain ⟨⟨nw2, hres2, hchain2, hgood2⟩, hr0, hrtd⟩ :=
          procPoints_spec hmn hmx pts hpts' s1 g1 res hs10 hs1td h
        refine ⟨⟨nw1 ++ nw2, ?_, segChain_append hchain1 hchain2, ?_⟩, hr0, hrtd⟩
        · rw [hres2, hg1]; simp
        · intro sg hsg
          rcases List.mem_append.mp hsg with hsg | hsg
          · exact hgood1 sg hsg
          · exact hgood2 sg hsg

/-- The candidate-point loop terminates with the fuel bound `fuelFor`. -/
lemma procPoints_total {mn mx td : ℚ} (hmn : 0 < mn) (hmx : mn ≤ mx) :
    ∀ (pts : List ℚ), (∀ p ∈ pts, 0 < p ∧ p < td) →
      ∀ (start : ℚ) (segs : List Seg), 0 ≤ start → start < td →
        ∃ res, procPoints mn mx (fuelFor td mx) pts (start, segs) = some res
  | [], _, start, segs, _, _ => ⟨(start, segs), rfl⟩
  | p :: pts, hpts, start, segs, h0, hlt => by
    have hmx0 : 0 < mx := lt_of_lt_of_le hmn hmx
    obtain ⟨hp0, hptd⟩ := hpts p (List.mem_cons_self p pts)
    have hpts' : ∀ q ∈ pts, 0 < q ∧ q < td := fun q hq => hpts q (List.mem_cons_of_mem p hq)
    have hfuel : p - start ≤ ((⌈td / mx⌉₊ : ℕ) : ℚ) * mx := by
      have h1 : p - start ≤ td := by linarith
      exact le_trans h1 (le_ceil_mul hmx0)
    obtain ⟨⟨s1, g1⟩, hFL⟩ :=
      @forceLoop_isSome mn mx p hmx0 ⌈td / mx⌉₊ start segs hfuel
    have hFL' : forceLoop mn mx p (fuelFor td mx) (start, segs) = some (s1, g1) := hFL
    obtain ⟨_, hs1le, hs1or, _⟩ := forceLoop_spec hmn _ start segs (s1, g1) hFL'
    dsimp only at hs1le hs1or
    have hs1td : s1 < td := by
      rcases hs1or with h' | h'
      · exact h' ▸ hlt
      · exact lt_trans h' hptd
    have hs10 : 0 ≤ s1 := le_trans h0 hs1le
    by_cases hnat : mn ≤ p - s1
    · obtain ⟨res, hres⟩ := procPoints_total hmn hmx pts hpts' p (g1 ++ [(s1, p)])
        (le_of_lt hp0) hptd
      exact ⟨res, by rw [procPoints, hFL']; dsimp only; rw [if_pos hnat]; exact hres⟩
    · obtain ⟨res, hres⟩ := procPoints_total hmn hmx pts hpts' s1 g1 hs10 hs1td
      exact ⟨res, by rw [procPoints, hFL']; dsimp only; rw [if_neg hnat]; exact hres⟩

/-! ### The filtered, sorted candidate list -/

lemma mem_sortedPoints {sps : List ℚ} {td x : ℚ} :
    x ∈ sortedPoints sps td ↔ x ∈ sps ∧ 0 < x ∧ x < td := by
  unfold sortedPoints
  rw [(List.perm_insertionSort _ _).mem_iff, List.mem_filter]
  simp

lemma sortedPoints_sorted (sps : List ℚ) (td : ℚ) :
    List.Sorted (· ≤ ·) (sortedPoints sps td) :=
  List.sorted_insertionSort _ _

/-! ### Structure of the final result -/

/-- Whenever `build_segments` returns at all, the result is non-empty:
the tail policy (lines 100-109) always appends a segment or rewrites the
last one.  No validity assumptions are needed. -/
lemma buildSegments_ne_nil {sps : List ℚ} {td mn mx : ℚ} {segs : List Seg}
    (h : buildSegments sps td mn mx = some segs) : segs ≠ [] := by
  rw [buildSegments] at h
  dsimp only at h
  cases hPP : procPoints mn mx (fuelFor td mx) (sortedPoints sps td) (0, []) with
  | none => rw [hPP] at h; exact absurd h (by simp)
  | some st1 =>
    rw [hPP] at h
    dsimp only at h
    cases hFL : forceLoop mn mx td (fuelFor td mx) st1 with
    | none => rw [hFL] at h; exact absurd h (by simp)
    | some st2 =>
      obtain ⟨s2, g2⟩ := st2
      rw [hFL] at h
      dsimp only at h
      by_cases htail : mn ≤ td - s2
      · rw [if_pos htail] at h
        obtain rfl := Option.some.inj h
        simp
      · rw [if_neg htail] at h
        cases hlast : g2.getLast? with
        | none => rw [hlast] at h; obtain rfl := Option.some.inj h; simp
        | some last => rw [hlast] at h; obtain rfl := Option.some.inj h; simp

/-- Master structural lemma about a successful run of `build_segments` on a
valid configuration: the result is a non-empty contiguous chain covering
`[0, total_duration)`, every segment but the last has length in
`[min_segment, max_segment]`, and the final segment has positive length
strictly below `min_segment + max_segment` (and at least `min_segment`
whenever there are at least two segments). -/
lemma buildSegments_spec {sps : List ℚ} {td mn mx : ℚ}
    (htd : 0 < td) (hmn : 0 < mn) (hmx : mn ≤ mx) {segs : List Seg}
    (h : buildSegments sps td mn mx = some segs) :
    segs ≠ [] ∧ SegChain 0 segs td ∧
    (∀ sg ∈ segs.dropLast, mn ≤ sg.2 - sg.1 ∧ sg.2 - sg.1 ≤ mx) ∧
    ∀ sg, segs.getLast? = some sg →
      0 < sg.2 - sg.1 ∧ sg.2 - sg.1 < mn + mx ∧
      (2 ≤ segs.length → mn ≤ sg.2 - sg.1) := by
  have hne := buildSegments_ne_nil h
  have hpts : ∀ p ∈ sortedPoints sps td, 0 < p ∧ p < td :=
    fun p hp => (mem_sortedPoints.mp hp).2
  rw [buildSegments] at h
  dsimp only at h
  cases hPP : procPoints mn mx (fuelFor td mx) (sortedPoints sps td) (0, []) with
  | none => rw [hPP] at h; exact absurd h (by simp)
  | some st1 =>
    obtain ⟨s1, g1⟩ := st1
    rw [hPP] at h
    dsimp only at h
    obtain ⟨⟨nw1, hg1, hchain1, hgood1⟩, hs10, hs1td⟩ :=
      procPoints_spec hmn hmx _ hpts 0 [] (s1, g1) le_rfl htd hPP
    dsimp only at hg1 hchain1 hs10 hs1td
    rw [List.nil_append] at hg1
    subst hg1
    cases hFL : forceLoop mn mx td (fuelFor td mx) (s1, g1) with
    | none => rw [hFL] at h; exact absurd h (by simp)
    | some st2 =>
      obtain ⟨s2, g2⟩ := st2
      rw [hFL] at h
      dsimp only at h
      obtain ⟨⟨nw2, hg2, hchain2, hgood2⟩, hs2le, hs2or, hexit⟩ :=
        forceLoop_spec hmn _ s1 g1 (s2, g2) hFL
      dsimp only at hg2 hchain2 hs2le hs2or hexit
      subst hg2
      have hs2td : s2 < td := by
        rcases hs2or with h' | h'
        · exact h' ▸ hs1td
        · exact h'
      have hs20 : 0 ≤ s2 := le_trans hs10 hs2le
      have hchain02 : SegChain 0 (g1 ++ nw2) s2 := segChain_append hchain1 hchain2
      have hgood02 : ∀ sg ∈ g1 ++ nw2, mn ≤ sg.2 - sg.1 ∧ sg.2 - sg.1 ≤ mx := by
        intro sg hsg
        rcases List.mem_append.mp hsg with hsg | hsg
        · exact hgood1 sg hsg
        · exact hgood2 sg hsg
      have htail_mx : td - s2 ≤ mx := by
        have := le_of_not_lt (hexit hmx); linarith
      by_cases htail : mn ≤ td - s2
      · rw [if_pos htail] at h
        obtain rfl := Option.some.inj h
        refine ⟨hne, ?_, ?_, ?_⟩
        · exact segChain_concat.mpr ⟨hchain02, rfl⟩
        · rw [List.dropLast_concat]; exact hgood02
        · intro sg hsg
          rw [List.getLast?_concat] at hsg
          obtain rfl := Option.some.inj hsg
          dsimp only
          refine ⟨by linarith, by linarith, fun _ => htail⟩
      · rw [if_neg htail] at h
        push_neg at htail
        cases hlast : (g1 ++ nw2).getLast? with
        | none =>
          rw [hlast] at h
          obtain rfl := Option.some.inj h
          have hnil : g1 ++ nw2 = [] := by
            cases hq : g1 ++ nw2 with
            | nil => rfl
            | cons a t => rw [hq] at hlast; simp [List.getLast?] at hlast
          rw [hnil] at hchain02
          have hs2z : s2 = 0 := (segChain_nil.mp hchain02).symm
          refine ⟨hne, ⟨rfl, rfl⟩, by simp, ?_⟩
          intro sg hsg
          simp only [List.getLast?_singleton] at hsg
          obtain rfl := Option.some.inj hsg
          dsimp only
          have htdmn : td < mn := by rw [hs2z] at htail; linarith
          have hmx0 : 0 < mx := lt_of_lt_of_le hmn hmx
          refine ⟨by linarith, by linarith, fun h2 => ?_⟩
          simp at h2
        | some lastSg =>
          rw [hlast] at h
          obtain rfl := Option.some.inj h
          obtain ⟨t, sg', hsplit⟩ : ∃ t sg', g1 ++ nw2 = t ++ [sg'] := by
            rcases List.eq_nil_or_concat (g1 ++ nw2) with h' | ⟨t, sg', hq⟩
            · rw [h'] at hlast; exact absurd hlast (by simp)
            · exact ⟨t, sg', by rw [hq]; exact List.concat_eq_append t sg'⟩
          have hEq : lastSg = sg' := by
            rw [hsplit, List.getLast?_concat] at hlast
            exact (Option.some.inj hlast).symm
          subst hEq
          rw [hsplit] at hchain02 hgood02 ⊢
          rw [segChain_concat] at hchain02
          obtain ⟨hchain0t, hlast2⟩ := hchain02
          obtain ⟨hlastmn, hlastmx⟩ := hgood02 lastSg (by simp)
          rw [List.dropLast_concat]
          refine ⟨by simp, ?_, ?_, ?_⟩
          · exact segChain_concat.mpr ⟨hchain0t, rfl⟩
          · rw [List.dropLast_concat]
            intro sg hsg
            exact hgood02 sg (List.mem_append_left _ hsg)
          · intro sg hsg
            rw [List.getLast?_concat] at hsg
            obtain rfl := Option.some.inj hsg
            dsimp only
            have htails : 0 < td - s2 := by linarith
            have hs2e : lastSg.2 = s2 := hlast2
            refine ⟨by linarith, by linarith, fun _ => by linarith⟩

/-- On a valid configuration, `build_segments` terminates: both `while`-loops
exit within the fuel bound and a result is produced. -/
lemma buildSegments_total {sps : List ℚ} {td mn mx : ℚ}
    (htd : 0 < td) (hmn : 0 < mn) (hmx : mn ≤ mx) :
    ∃ segs, buildSegments sps td mn mx = some segs := by
  have hmx0 : 0 < mx := lt_of_lt_of_le hmn hmx
  have hpts : ∀ p ∈ sortedPoints sps td, 0 < p ∧ p < td :=
    fun p hp => (mem_sortedPoints.mp hp).2
  obtain ⟨⟨s1, g1⟩, hPP⟩ := procPoints_total hmn hmx _ hpts 0 [] le_rfl htd
  obtain ⟨_, hs10, hs1td⟩ := procPoints_spec hmn hmx _ hpts 0 [] (s1, g1) le_rfl htd hPP
  dsimp only at hs10 hs1td
  have hfuel : td - s1 ≤ ((⌈td / mx⌉₊ : ℕ) : ℚ) * mx :=
    le_trans (by linarith) (le_ceil_mul hmx0)
  obtain ⟨⟨s2, g2⟩, hFL⟩ := @forceLoop_isSome mn mx td hmx0 ⌈td / mx⌉₊ s1 g1 hfuel
  have hFL' : forceLoop mn mx td (fuelFor td mx) (s1, g1) = some (s2, g2) := hFL
  rw [buildSegments]
  dsimp only
  rw [hPP]
  dsimp only
  rw [hFL']
  dsimp only
  by_cases htail : mn ≤ td - s2
  · rw [if_pos htail]
    exact ⟨_, rfl⟩
  · rw [if_neg htail]
    cases hl : g2.getLast? with
    | none => exact ⟨_, rfl⟩
    | some lastSg => exact ⟨_, rfl⟩

/-! ### The degenerate (no silence points) stride partition -/

/-- The number of forced stride cuts: how many naturals `k` satisfy
`k * maxSeg + maxSeg < total_duration`. -/
def strideCount (total_duration maxSeg : ℚ) : ℕ :=
  ⌈total_duration / maxSeg - 1⌉₊

/-- Modelled from the spec (§4.2 steps 3-5 as summarized by §8, "an empty
`silence_points` list yields a pure `max_segment`-stride partition with
tail-merge"): segments `(k*max, (k+1)*max)` for each `k` with
`k*max + max < total_duration`; then the remainder `[last cut,
total_duration)` is emitted standalone if its length is at least
`min_segment`, merged into the previous segment if shorter and a segment
exists, and the single segment `(0, total_duration)` if no cut was made. -/
def strideSpec (total_duration minSeg maxSeg : ℚ) : List Seg :=
  let K := strideCount total_duration maxSeg
  let cuts : List Seg :=
    (List.range K).map fun (k : ℕ) => ((k : ℚ) * maxSeg, ((k : ℚ) + 1) * maxSeg)
  let cursor : ℚ := (K : ℚ) * maxSeg
  let tail_len := total_duration - cursor
  if minSeg ≤ tail_len then cuts ++ [(cursor, total_duration)]
  else
    match cuts.getLast? with
    | some last => cuts.dropLast ++ [(last.1, total_duration)]
    | none => [(0, total_duration)]

/-- The forced-cut guard at stride position `j` fires exactly for
`j < strideCount`. -/
lemma stride_guard {td mx : ℚ} (hmx : 0 < mx) (j : ℕ) :
    (j : ℚ) * mx + mx < td ↔ j < strideCount td mx := by
  rw [strideCount, Nat.lt_ceil, lt_sub_iff_add_lt, lt_div_iff₀ hmx,
    show ((j : ℚ) + 1) * mx = (j : ℚ) * mx + mx from by ring]

/-- Closed form of the forced-cut loop started at stride position `j * mx`:
it cuts exactly at the stride points `j, j+1, …, strideCount - 1`. -/
lemma forceLoop_stride {mn mx td : ℚ} (hmn : 0 < mn) (hmx : mn ≤ mx) :
    ∀ (fuel : ℕ) (j : ℕ) (segs : List Seg),
      td - (j : ℚ) * mx ≤ (fuel : ℚ) * mx →
      forceLoop mn mx td (fuel + 1) ((j : ℚ) * mx, segs) =
        some (((max j (strideCount td mx) : ℕ) : ℚ) * mx,
          segs ++ (List.range' j (strideCount td mx - j)).map
            (fun (k : ℕ) => ((k : ℚ) * mx, ((k : ℚ) + 1) * mx)))
  | fuel, j, segs, h => by
    have hmx0 : 0 < mx := lt_of_lt_of_le hmn hmx
    by_cases hlt : (j : ℚ) * mx + mx < td
    · have hjK : j < strideCount td mx := (stride_guard hmx0 j).mp hlt
      cases fuel with
      | zero =>
        exfalso
        simp only [Nat.cast_zero, zero_mul] at h
        linarith
      | succ fuel =>
        have hcut : mn ≤ (j : ℚ) * mx + mx - (j : ℚ) * mx := by
          have : (j : ℚ) * mx + mx - (j : ℚ) * mx = mx := by ring
          rw [this]; exact hmx
        have hstep : ((j : ℚ) * mx + mx) = ((j + 1 : ℕ) : ℚ) * mx := by
          push_cast; ring
        have h' : td - ((j + 1 : ℕ) : ℚ) * mx ≤ (fuel : ℚ) * mx := by
          rw [← hstep]; push_cast at h ⊢; linarith
        have hrec := forceLoop_stride hmn hmx fuel (j + 1) (segs ++ [((j : ℚ) * mx, (j : ℚ) * mx + mx)]) h'
        rw [← hstep] at hrec
        rw [show forceLoop mn mx td (fuel + 1 + 1) ((j : ℚ) * mx, segs) =
            forceLoop mn mx td (fuel + 1)
              ((j : ℚ) * mx + mx, segs ++ [((j : ℚ) * mx, (j : ℚ) * mx + mx)]) from by
          simp only [forceLoop, if_pos hlt, if_pos hcut], hrec]
        have hmaxeq : max (j + 1) (strideCount td mx) = max j (strideCount td mx) := by
          omega
        have hrange : List.range' j (strideCount td mx - j) =
            j :: List.range' (j + 1) (strideCount td mx - (j + 1)) := by
          have hn : strideCount td mx - j = (strideCount td mx - (j + 1)) + 1 := by omega
          rw [hn, List.range'_succ]
        rw [hmaxeq, hrange]
        simp only [List.map_cons]
        rw [show ((j : ℚ) + 1) * mx = (j : ℚ) * mx + mx from by ring]
        simp [List.append_assoc]
    · have hjK : strideCount td mx ≤ j := by
        by_contra hc
        exact hlt ((stride_guard hmx0 j).mpr (by omega))
      rw [forceLoop_noop hlt (by omega)]
      rw [Nat.sub_eq_zero_of_le hjK, max_eq_left hjK]
      simp

/-! ### Insensitivity to duplicates and ordering -/

/-- Processing the same candidate point twice in a row is the same as
processing it once: the second pass makes no forced cut (the sub-loop already
ran to exhaustion against the same target) and skips the natural cut. -/
lemma procPoints_cons_cons {mn mx : ℚ} (hmn : 0 < mn) (hmx : mn ≤ mx) {F : ℕ}
    (hF : 1 ≤ F) (a : ℚ) (t : List ℚ) (st : ℚ × List Seg) :
    procPoints mn mx F (a :: a :: t) st = procPoints mn mx F (a :: t) st := by
  obtain ⟨start, segs⟩ := st
  have hmx0 : 0 < mx := lt_of_lt_of_le hmn hmx
  rw [procPoints, procPoints]
  cases hFL : forceLoop mn mx a F (start, segs) with
  | none => rfl
  | some st1 =>
    obtain ⟨s1, g1⟩ := st1
    obtain ⟨_, _, _, hexit⟩ := forceLoop_spec hmn F start segs (s1, g1) hFL
    dsimp only at hexit
    dsimp only
    by_cases hnat : mn ≤ a - s1
    · rw [if_pos hnat]
      rw [procPoints, forceLoop_noop (show ¬ a + mx < a from by linarith) hF]
      dsimp only
      have hna : ¬ mn ≤ a - a := by simp only [sub_self, not_le]; exact hmn
      rw [if_neg hna, if_pos hnat]
    · rw [if_neg hnat]
      rw [procPoints, forceLoop_noop (hexit hmx) hF]

/-- On a sorted candidate list, the point loop only depends on the list of
distinct values: duplicates are no-ops. -/
lemma procPoints_dedup {mn mx : ℚ} (hmn : 0 < mn) (hmx : mn ≤ mx) {F : ℕ}
    (hF : 1 ≤ F) :
    ∀ (l : List ℚ), l.Sorted (· ≤ ·) →
      ∀ st, procPoints mn mx F l st = procPoints mn mx F l.dedup st
  | [], _, st => rfl
  | a :: t, hsort, st => by
    have hsort_t : List.Sorted (· ≤ ·) t := hsort.of_cons
    by_cases hmem : a ∈ t
    · obtain ⟨t', rfl⟩ : ∃ t', t = a :: t' := by
        cases t with
        | nil => simp at hmem
        | cons b t' =>
          have hab : a ≤ b := (List.sorted_cons.mp hsort).1 b (by simp)
          have hba : b ≤ a := by
            rcases List.mem_cons.mp hmem with h' | h'
            · exact le_of_eq h'.symm
            · exact (List.sorted_cons.mp hsort_t).1 a h'
          obtain rfl : b = a := le_antisymm hba hab
          exact ⟨t', rfl⟩
      rw [List.dedup_cons_of_mem hmem,
        procPoints_cons_cons hmn hmx hF a t' st,
        procPoints_dedup hmn hmx hF (a :: t') hsort_t st]
    · rw [List.dedup_cons_of_not_mem hmem]
      obtain ⟨start, segs⟩ := st
      rw [procPoints, procPoints]
      cases hFL : forceLoop mn mx a F (start, segs) with
      | none => rfl
      | some st1 =>
        obtain ⟨s1, g1⟩ := st1
        dsimp only
        rw [procPoints_dedup hmn hmx hF t hsort_t (a, g1 ++ [(s1, a)]),
          procPoints_dedup hmn hmx hF t hsort_t (s1, g1)]

/-- Two sorted lists with the same elements have the same deduplication. -/
lemma sorted_dedup_eq {l₁ l₂ : List ℚ} (hs₁ : List.Sorted (· ≤ ·) l₁)
    (hs₂ : List.Sorted (· ≤ ·) l₂) (hmem : ∀ x, x ∈ l₁ ↔ x ∈ l₂) :
    l₁.dedup = l₂.dedup := by
  have hperm : l₁.dedup.Perm l₂.dedup := by
    refine (List.perm_ext_iff_of_nodup (List.nodup_dedup _) (List.nodup_dedup _)).mpr ?_
    intro a
    rw [List.mem_dedup, List.mem_dedup]
    exact hmem a
  have hd₁ : List.Sorted (· ≤ ·) l₁.dedup := hs₁.sublist (List.dedup_sublist _)
  have hd₂ : List.Sorted (· ≤ ·) l₂.dedup := hs₂.sublist (List.dedup_sublist _)
  exact List.eq_of_perm_of_sorted hperm hd₁ hd₂

/-! ### A model of `main` (lines 187-208 of `split_by_silence.py`) -/

/-- The possible outcomes of `main`, as far as the segmentation flow is
concerned (file-system probing, duration probing and log parsing are taken as
already-given inputs). -/
inductive MainResult
  | errMissingInput : MainResult
  | errMissingLog : MainResult
  | noSilenceFallback : List Seg → MainResult
  | emptyBuildFallback : List Seg → MainResult
  | built : List Seg → MainResult
  | stuck : MainResult
  deriving DecidableEq

/-- `main` of `split_by_silence.py`: reject a missing input file, then a
missing silence log; if no silence points were parsed use the whole file as a
single segment; otherwise call `build_segments` and, if it returned an empty
list, fall back to a single whole-file segment ("No valid segments built").
There is no configuration validation of `min_segment`, `max_segment` or
`total_duration` anywhere on this path.  `stuck` models a `build_segments`
call whose internal `while`-loop does not terminate within the fuel bound. -/
def mainModel (inputExists logExists : Bool) (silence_points : List ℚ)
    (total_duration minSeg maxSeg : ℚ) : MainResult :=
  if inputExists = false then .errMissingInput
  else if logExists = false then .errMissingLog
  else if silence_points = [] then .noSilenceFallback [(0, total_duration)]
  else
    match buildSegments silence_points total_duration minSeg maxSeg with
    | none => .stuck
    | some segs =>
      if segs = [] then .emptyBuildFallback [(0, total_duration)]
      else .built segs

/-- Did this outcome of `main` involve invoking `build_segments`? -/
def ranBuild : MainResult → Bool
  | .emptyBuildFallback _ => true
  | .built _ => true
  | .stuck => true
  | _ => false

/-! ### Evaluation helpers for concrete inputs -/

lemma one_le_fuelFor (td mx : ℚ) : 1 ≤ fuelFor td mx := by
  rw [fuelFor]; omega

/-- Concrete run used by several witnesses (spec §8, scenario 2). -/
lemma eval_buildSegments_310 :
    buildSegments [310] 1000 300 900 = some [(0, 310), (310, 1000)] := by
  rw [buildSegments]
  dsimp only
  rw [show sortedPoints [310] 1000 = [310] from by decide]
  rw [procPoints]
  rw [forceLoop_noop (show ¬ (0 : ℚ) + 900 < 310 from by norm_num)
    (one_le_fuelFor 1000 900)]
  dsimp only
  rw [if_pos (show (300 : ℚ) ≤ 310 - 0 from by norm_num)]
  rw [procPoints]
  dsimp only [List.nil_append]
  rw [forceLoop_noop (show ¬ (310 : ℚ) + 900 < 1000 from by norm_num)
    (one_le_fuelFor 1000 900)]
  dsimp only
  rw [if_pos (show (300 : ℚ) ≤ 1000 - 310 from by norm_num)]
  rfl

/-! ### The claims -/

/-- C1: for every `total_duration > 0`, every list of silence points and every
configuration `0 < min_segment < max_segment`, the list returned by
`build_segments` is a partition of `[0, total_duration)`: it is non-empty,
the first segment starts at `0.0`, the last segment ends at `total_duration`,
every segment has `start < end`, and each segment's end equals the next
segment's start (`SegChain 0 segs total_duration`), so the segments are in
strictly increasing start order with no gaps and no overlaps. -/
theorem C1_partition (sps : List ℚ) (td mn mx : ℚ) (segs : List Seg)
    (htd : 0 < td) (hmn : 0 < mn) (hmx : mn < mx)
    (h : buildSegments sps td mn mx = some segs) :
    segs ≠ [] ∧
    segs.head?.map Prod.fst = some 0 ∧
    segs.getLast?.map Prod.snd = some td ∧
    (∀ sg ∈ segs, sg.1 < sg.2) ∧
    SegChain 0 segs td := by
  obtain ⟨hne, hchain, hdrop, hlast⟩ := buildSegments_spec htd hmn (le_of_lt hmx) h
  refine ⟨hne, segChain_head hchain hne, segChain_getLast hchain hne, ?_, hchain⟩
  intro sg hsg
  have hsplit := List.dropLast_append_getLast hne
  rw [← hsplit] at hsg
  rcases List.mem_append.mp hsg with hsg | hsg
  · have hg := hdrop sg hsg
    linarith [hg.1]
  · obtain rfl : sg = segs.getLast hne := by simpa using hsg
    have hg := hlast _ (List.getLast?_eq_getLast segs hne)
    linarith [hg.1]

/-- C2: for every valid input, every segment returned by `build_segments`
except possibly the last one has duration at least `min_segment`. -/
theorem C2_lower_bound (sps : List ℚ) (td mn mx : ℚ) (segs : List Seg)
    (htd : 0 < td) (hmn : 0 < mn) (hmx : mn < mx)
    (h : buildSegments sps td mn mx = some segs) :
    ∀ sg ∈ segs.dropLast, mn ≤ sg.2 - sg.1 :=
  fun sg hsg =>
    ((buildSegments_spec htd hmn (le_of_lt hmx) h).2.2.1 sg hsg).1

/-- C3: for every valid input, every segment returned by `build_segments`
except possibly the last one has duration at most `max_segment`. -/
theorem C3_upper_bound (sps : List ℚ) (td mn mx : ℚ) (segs : List Seg)
    (htd : 0 < td) (hmn : 0 < mn) (hmx : mn < mx)
    (h : buildSegments sps td mn mx = some segs) :
    ∀ sg ∈ segs.dropLast, sg.2 - sg.1 ≤ mx :=
  fun sg hsg =>
    ((buildSegments_spec htd hmn (le_of_lt hmx) h).2.2.1 sg hsg).2

/-- C4: `build_segments` is total on its valid domain: for every
`total_duration > 0`, every finite list of silence points and every
configuration `0 < min_segment < max_segment` it terminates and returns a
result (both forced-cut `while`-loops exit within the fuel bound, so the
fuel-indexed model returns `some`). -/
theorem C4_terminates (sps : List ℚ) (td mn mx : ℚ)
    (htd : 0 < td) (hmn : 0 < mn) (hmx : mn < mx) :
    ∃ segs, buildSegments sps td mn mx = some segs :=
  buildSegments_total htd hmn (le_of_lt hmx)

/-- C5: for every valid configuration, the output of `build_segments` depends
only on the set of silence points strictly inside `(0, total_duration)`: two
input lists whose filtered points are equal as sets (permutations, duplicated
points, and points outside the open range are all immaterial) produce the
same segment list. -/
theorem C5_set_determined (sps₁ sps₂ : List ℚ) (td mn mx : ℚ)
    (htd : 0 < td) (hmn : 0 < mn) (hmx : mn < mx)
    (hset : (sps₁.filter fun sp => decide (0 < sp ∧ sp < td)).toFinset =
      (sps₂.filter fun sp => decide (0 < sp ∧ sp < td)).toFinset) :
    buildSegments sps₁ td mn mx = buildSegments sps₂ td mn mx := by
  have hmx' : mn ≤ mx := le_of_lt hmx
  have hF : 1 ≤ fuelFor td mx := by rw [fuelFor]; omega
  have hmem : ∀ x, x ∈ sortedPoints sps₁ td ↔ x ∈ sortedPoints sps₂ td := by
    intro x
    rw [sortedPoints, sortedPoints,
      (List.perm_insertionSort _ _).mem_iff, (List.perm_insertionSort _ _).mem_iff,
      ← List.mem_toFinset, ← List.mem_toFinset, hset]
  have hpp : procPoints mn mx (fuelFor td mx) (sortedPoints sps₁ td) (0, []) =
      procPoints mn mx (fuelFor td mx) (sortedPoints sps₂ td) (0, []) := by
    rw [procPoints_dedup hmn hmx' hF _ (sortedPoints_sorted sps₁ td),
      procPoints_dedup hmn hmx' hF _ (sortedPoints_sorted sps₂ td),
      sorted_dedup_eq (sortedPoints_sorted sps₁ td) (sortedPoints_sorted sps₂ td) hmem]
  rw [buildSegments, buildSegments]
  dsimp only
  rw [hpp]

/-- C6 (counterexample): the claim "every invocation with an invalid
configuration is rejected with a configuration error before the segmentation
sweep begins, rather than running `build_segments`" is false: with the
invalid configuration `min_segment = -1`, `max_segment = -2`
(`max ≤ min` and `min ≤ 0`), both files present and a non-empty silence log,
`main` runs `build_segments` anyway and proceeds with its output. -/
theorem C6_counterexample :
    ((-2 : ℚ) ≤ (-1 : ℚ) ∧ ¬ (0 : ℚ) < (-1 : ℚ)) ∧
    mainModel true true [5] 100 (-1) (-2) = .built [(0, 5), (5, 100)] ∧
    ranBuild (mainModel true true [5] 100 (-1) (-2)) = true := by
  have hbuild : buildSegments [5] 100 (-1) (-2) = some [(0, 5), (5, 100)] := by
    rw [buildSegments]
    dsimp only
    rw [show sortedPoints [5] 100 = [5] from by decide]
    rw [procPoints, fuelFor, forceLoop]
    rw [if_pos (show (0 : ℚ) + (-2) < 5 from by norm_num)]
    dsimp only
    rw [if_neg (show ¬ (-1 : ℚ) ≤ 0 + (-2) - 0 from by norm_num)]
    dsimp only
    rw [if_pos (show (-1 : ℚ) ≤ 5 - 0 from by norm_num)]
    rw [procPoints]
    dsimp only [List.nil_append]
    rw [forceLoop]
    rw [if_pos (show (5 : ℚ) + (-2) < 100 from by norm_num)]
    dsimp only
    rw [if_neg (show ¬ (-1 : ℚ) ≤ 5 + (-2) - 5 from by norm_num)]
    dsimp only
    rw [if_pos (show (-1 : ℚ) ≤ 100 - 5 from by norm_num)]
    rfl
  have hmain : mainModel true true [5] 100 (-1) (-2) = .built [(0, 5), (5, 100)] := by
    rw [mainModel]
    rw [if_neg (show ¬ (true = false) from by simp)]
    rw [if_neg (show ¬ (true = false) from by simp)]
    rw [if_neg (show ([5] : List ℚ) ≠ [] from by simp)]
    rw [hbuild]
    dsimp only
    rw [if_neg (show ([(0, 5), (5, 100)] : List Seg) ≠ [] from by simp)]
  refine ⟨⟨by norm_num, by norm_num⟩, hmain, ?_⟩
  rw [hmain]
  rfl

/-- C6 (amended): `main` performs no configuration validation at all: its
only pre-checks are for the input file and the silence log.  Whenever both
files exist and the silence log is non-empty, `build_segments` is invoked —
for every configuration, valid or not. -/
theorem C6_amended (sps : List ℚ) (td mn mx : ℚ) (hne : sps ≠ []) :
    ranBuild (mainModel true true sps td mn mx) = true := by
  rw [mainModel]
  rw [if_neg (show ¬ (true = false) from by simp)]
  rw [if_neg (show ¬ (true = false) from by simp)]
  rw [if_neg hne]
  cases h : buildSegments sps td mn mx with
  | none => rfl
  | some segs =>
    dsimp only
    by_cases hs : segs = []
    · rw [if_pos hs]; rfl
    · rw [if_neg hs]; rfl

/-- C7: with an empty `silence_points` list and a valid configuration,
`build_segments` returns exactly the pure `max_segment`-stride partition with
tail handling described by the spec (`strideSpec`). -/
theorem C7_empty_points (td mn mx : ℚ)
    (htd : 0 < td) (hmn : 0 < mn) (hmx : mn < mx) :
    buildSegments [] td mn mx = some (strideSpec td mn mx) := by
  have hmx' : mn ≤ mx := le_of_lt hmx
  have hmx0 : 0 < mx := lt_of_lt_of_le hmn hmx'
  have hfuel : td - ((0 : ℕ) : ℚ) * mx ≤ ((⌈td / mx⌉₊ : ℕ) : ℚ) * mx := by
    push_cast
    simpa using le_ceil_mul hmx0
  have hFL := forceLoop_stride hmn hmx' ⌈td / mx⌉₊ 0 [] hfuel
  have h0 : ((0 : ℕ) : ℚ) * mx = 0 := by push_cast; ring
  rw [h0] at hFL
  rw [buildSegments]
  dsimp only
  rw [show sortedPoints [] td = [] from rfl]
  rw [show procPoints mn mx (fuelFor td mx) [] (0, []) =
    some ((0 : ℚ), ([] : List Seg)) from rfl]
  dsimp only
  rw [show fuelFor td mx = ⌈td / mx⌉₊ + 1 from rfl, hFL]
  dsimp only
  simp only [strideSpec]
  rw [show max 0 (strideCount td mx) = strideCount td mx from
    Nat.max_eq_right (Nat.zero_le _)]
  rw [Nat.sub_zero, ← List.range_eq_range', List.nil_append]
  by_cases htail : mn ≤ td - ((strideCount td mx : ℕ) : ℚ) * mx
  · rw [if_pos htail, if_pos htail]
  · rw [if_neg htail, if_neg htail]
    cases hl : ((List.range (strideCount td mx)).map
        (fun (k : ℕ) => ((k : ℚ) * mx, ((k : ℚ) + 1) * mx))).getLast? with
    | none => rfl
    | some lastSg => rfl

/-- C8: on the concrete input `total_duration = 1000`,
`silence_points = [50, 120, 950]`, `min_segment = 300`, `max_segment = 900`,
`build_segments` returns exactly `[(0, 1000)]`. -/
theorem C8_concrete :
    buildSegments [50, 120, 950] 1000 300 900 = some [(0, 1000)] := by
  have hFL950 : forceLoop 300 900 950 (fuelFor 1000 900) (0, []) =
      some (900, [(0, 900)]) := by
    rw [fuelFor, forceLoop]
    rw [if_pos (show (0 : ℚ) + 900 < 950 from by norm_num)]
    dsimp only
    rw [if_pos (show (300 : ℚ) ≤ 0 + 900 - 0 from by norm_num)]
    rw [show (0 : ℚ) + 900 = 900 from by norm_num]
    rw [forceLoop_noop (show ¬ (900 : ℚ) + 900 < 950 from by norm_num)
      (by
        have h := Nat.ceil_pos.mpr (show (0 : ℚ) < 1000 / 900 from by norm_num)
        omega)]
    rfl
  rw [buildSegments]
  dsimp only
  rw [show sortedPoints [50, 120, 950] 1000 = [50, 120, 950] from by decide]
  rw [procPoints]
  rw [forceLoop_noop (show ¬ (0 : ℚ) + 900 < 50 from by norm_num)
    (one_le_fuelFor 1000 900)]
  dsimp only
  rw [if_neg (show ¬ (300 : ℚ) ≤ 50 - 0 from by norm_num)]
  rw [procPoints]
  rw [forceLoop_noop (show ¬ (0 : ℚ) + 900 < 120 from by norm_num)
    (one_le_fuelFor 1000 900)]
  dsimp only
  rw [if_neg (show ¬ (300 : ℚ) ≤ 120 - 0 from by norm_num)]
  rw [procPoints, hFL950]
  dsimp only
  rw [if_neg (show ¬ (300 : ℚ) ≤ 950 - 900 from by norm_num)]
  rw [procPoints]
  dsimp only
  rw [forceLoop_noop (show ¬ (900 : ℚ) + 900 < 1000 from by norm_num)
    (one_le_fuelFor 1000 900)]
  dsimp only
  rw [if_neg (show ¬ (300 : ℚ) ≤ 1000 - 900 from by norm_num)]
  rfl

/-- C9: on every valid input, `build_segments` returns a non-empty list;
consequently the fallback branch in `main` that replaces an empty
`build_segments` result with a single whole-file segment
("No valid segments built") is unreachable. -/
theorem C9_nonempty (sps : List ℚ) (td mn mx : ℚ) (segs : List Seg)
    (htd : 0 < td) (hmn : 0 < mn) (hmx : mn < mx)
    (h : buildSegments sps td mn mx = some segs) :
    segs ≠ [] ∧
    ∀ (inputExists logExists : Bool) (fb : List Seg),
      mainModel inputExists logExists sps td mn mx ≠ .emptyBuildFallback fb := by
  refine ⟨buildSegments_ne_nil h, ?_⟩
  intro ie le fb
  rw [mainModel]
  by_cases hie : ie = false
  · rw [if_pos hie]; simp
  · rw [if_neg hie]
    by_cases hle : le = false
    · rw [if_pos hle]; simp
    · rw [if_neg hle]
      by_cases hsp : sps = []
      · rw [if_pos hsp]; simp
      · rw [if_neg hsp, h]
        show (if segs = [] then MainResult.emptyBuildFallback [(0, td)]
          else MainResult.built segs) ≠ MainResult.emptyBuildFallback fb
        rw [if_neg (buildSegments_ne_nil h)]
        simp

/-- C10: on every valid input, if `build_segments` returns at least two
segments then every segment, including the final one, has duration at least
`min_segment` (a final segment shorter than `min_segment` requires it to be
the sole segment); moreover the final segment's duration is always strictly
less than `min_segment + max_segment`. -/
theorem C10_final_segment (sps : List ℚ) (td mn mx : ℚ) (segs : List Seg)
    (htd : 0 < td) (hmn : 0 < mn) (hmx : mn < mx)
    (h : buildSegments sps td mn mx = some segs) :
    (2 ≤ segs.length → ∀ sg ∈ segs, mn ≤ sg.2 - sg.1) ∧
    (∀ sg, segs.getLast? = some sg → sg.2 - sg.1 < mn + mx) := by
  obtain ⟨hne, hchain, hdrop, hlast⟩ := buildSegments_spec htd hmn (le_of_lt hmx) h
  refine ⟨?_, fun sg hsg => (hlast sg hsg).2.1⟩
  intro h2 sg hsg
  have hsplit := List.dropLast_append_getLast hne
  rw [← hsplit] at hsg
  rcases List.mem_append.mp hsg with hsg | hsg
  · exact (hdrop sg hsg).1
  · obtain rfl : sg = segs.getLast hne := by simpa using hsg
    exact (hlast _ (List.getLast?_eq_getLast segs hne)).2.2 h2

/-! ### Witnesses -/

/-- Witness for C1 at the concrete input of spec §8, scenario 2. -/
theorem C1_partition_witness :
    buildSegments [310] 1000 300 900 = some [(0, 310), (310, 1000)] ∧
    (([(0, 310), (310, 1000)] : List Seg) ≠ [] ∧
      ([(0, 310), (310, 1000)] : List Seg).head?.map Prod.fst = some 0 ∧
      ([(0, 310), (310, 1000)] : List Seg).getLast?.map Prod.snd = some 1000 ∧
      (∀ sg ∈ ([(0, 310), (310, 1000)] : List Seg), sg.1 < sg.2) ∧
      SegChain 0 [(0, 310), (310, 1000)] 1000) :=
  ⟨eval_buildSegments_310,
    C1_partition [310] 1000 300 900 [(0, 310), (310, 1000)]
      (by norm_num) (by norm_num) (by norm_num) eval_buildSegments_310⟩

/-- Witness for C2 at the concrete input of spec §8, scenario 2. -/
theorem C2_lower_bound_witness :
    buildSegments [310] 1000 300 900 = some [(0, 310), (310, 1000)] ∧
    ∀ sg ∈ ([(0, 310), (310, 1000)] : List Seg).dropLast, (300 : ℚ) ≤ sg.2 - sg.1 :=
  ⟨eval_buildSegments_310,
    C2_lower_bound [310] 1000 300 900 [(0, 310), (310, 1000)]
      (by norm_num) (by norm_num) (by norm_num) eval_buildSegments_310⟩

/-- Witness for C3 at the concrete input of spec §8, scenario 2. -/
theorem C3_upper_bound_witness :
    buildSegments [310] 1000 300 900 = some [(0, 310), (310, 1000)] ∧
    ∀ sg ∈ ([(0, 310), (310, 1000)] : List Seg).dropLast, sg.2 - sg.1 ≤ (900 : ℚ) :=
  ⟨eval_buildSegments_310,
    C3_upper_bound [310] 1000 300 900 [(0, 310), (310, 1000)]
      (by norm_num) (by norm_num) (by norm_num) eval_buildSegments_310⟩

/-- Witness for C4 at the concrete input of spec §8, scenario 4. -/
theorem C4_terminates_witness :
    (0 : ℚ) < 1000 ∧ (0 : ℚ) < 300 ∧ (300 : ℚ) < 900 ∧
    ∃ segs, buildSegments [50, 120, 950] 1000 300 900 = some segs :=
  ⟨by norm_num, by norm_num, by norm_num,
    C4_terminates [50, 120, 950] 1000 300 900 (by norm_num) (by norm_num) (by norm_num)⟩

/-- Witness for C5: the lists `[5, 5, 3, -1, 200]` and `[3, 5, 150]` filter
to the same set `{3, 5}` inside `(0, 100)`, so they produce the same
segments. -/
theorem C5_set_determined_witness :
    (([5, 5, 3, -1, 200] : List ℚ).filter fun sp => decide (0 < sp ∧ sp < 100)).toFinset =
      (([3, 5, 150] : List ℚ).filter fun sp => decide (0 < sp ∧ sp < 100)).toFinset ∧
    buildSegments [5, 5, 3, -1, 200] 100 1 10 = buildSegments [3, 5, 150] 100 1 10 :=
  ⟨by decide,
    C5_set_determined [5, 5, 3, -1, 200] [3, 5, 150] 100 1 10
      (by norm_num) (by norm_num) (by norm_num) (by decide)⟩

/-- Witness for the amended C6. -/
theorem C6_amended_witness :
    ([5] : List ℚ) ≠ [] ∧ ranBuild (mainModel true true [5] 100 (-1) (-2)) = true :=
  ⟨by simp, C6_amended [5] 100 (-1) (-2) (by simp)⟩

/-- Witness for C7 at the concrete input of spec §8, scenario 1. -/
theorem C7_empty_points_witness :
    (0 : ℚ) < 1000 ∧ (0 : ℚ) < 300 ∧ (300 : ℚ) < 900 ∧
    buildSegments [] 1000 300 900 = some (strideSpec 1000 300 900) :=
  ⟨by norm_num, by norm_num, by norm_num,
    C7_empty_points 1000 300 900 (by norm_num) (by norm_num) (by norm_num)⟩

/-- Witness for C9 at the concrete input of spec §8, scenario 2. -/
theorem C9_nonempty_witness :
    buildSegments [310] 1000 300 900 = some [(0, 310), (310, 1000)] ∧
    (([(0, 310), (310, 1000)] : List Seg) ≠ [] ∧
      ∀ (inputExists logExists : Bool) (fb : List Seg),
        mainModel inputExists logExists [310] 1000 300 900 ≠ .emptyBuildFallback fb) :=
  ⟨eval_buildSegments_310,
    C9_nonempty [310] 1000 300 900 [(0, 310), (310, 1000)]
      (by norm_num) (by norm_num) (by norm_num) eval_buildSegments_310⟩

/-- Witness for C10 at the concrete input of spec §8, scenario 2. -/
theorem C10_final_segment_witness :
    buildSegments [310] 1000 300 900 = some [(0, 310), (310, 1000)] ∧
    ((2 ≤ ([(0, 310), (310, 1000)] : List Seg).length →
        ∀ sg ∈ ([(0, 310), (310, 1000)] : List Seg), (300 : ℚ) ≤ sg.2 - sg.1) ∧
      ∀ sg, ([(0, 310), (310, 1000)] : List Seg).getLast? = some sg →
        sg.2 - sg.1 < (300 : ℚ) + 900) :=
  ⟨eval_buildSegments_310,
    C10_final_segment [310] 1000 300 900 [(0, 310), (310, 1000)]
      (by norm_num) (by norm_num) (by norm_num) eval_buildSegments_310⟩

end YtFukikae
